import Mathlib

/-!
Verification development for the FP-growth recommendation system
(`src/recommendation/fp_growth_recs/training.py`,
`src/application/fp_growth_training.py`,
`src/application/fp_growth_recommendations.py`).

Modelling conventions:
* item identifiers are `String`s;
* Python `float` confidences and supports are modelled as exact rationals
  (`ℚ`): the engine only adds and compares them;
* Python `dict` / `defaultdict` values are modelled as association lists in
  key-insertion order (Python dicts preserve insertion order);
* Python's stable sorts (`list.sort` / `sorted` with `reverse=True`) are
  modelled by `sortDescBy`, a stable insertion sort that keeps elements with
  equal keys in their original relative order;
* sets supplied by callers (`user_items`) are modelled as the list of their
  iteration order; the theorems below either quantify over that order or
  state order-independent facts.
-/

namespace FPGrowth

abbrev Item := String

/-- Exact rational addition in a kernel-reducible form (Batteries marks
`Rat.add` irreducible); `ratAdd_eq` proves it is ordinary `ℚ` addition. -/
def ratAdd (a b : ℚ) : ℚ := mkRat (a.num * b.den + b.num * a.den) (a.den * b.den)

/-- Exact rational division in a kernel-reducible form for nonnegative
divisors (the only divisors arising here are support ratios);
`ratDiv_eq` proves it is ordinary `ℚ` division there. -/
def ratDiv (a b : ℚ) : ℚ := mkRat (a.num * b.den) (a.den * b.num.natAbs)

/-- Exact rational subtraction in a kernel-reducible form; `ratSub_eq`
proves it is ordinary `ℚ` subtraction. -/
def ratSub (a b : ℚ) : ℚ := mkRat (a.num * b.den - b.num * a.den) (a.den * b.den)

theorem ratAdd_eq (a b : ℚ) : ratAdd a b = a + b := by
  rw [ratAdd, Rat.mkRat_eq_div]
  have ha : ((a.den : ℚ)) ≠ 0 := by exact_mod_cast a.den_nz
  have hb : ((b.den : ℚ)) ≠ 0 := by exact_mod_cast b.den_nz
  conv_rhs => rw [← Rat.num_div_den a, ← Rat.num_div_den b]
  push_cast
  field_simp

theorem ratSub_eq (a b : ℚ) : ratSub a b = a - b := by
  rw [ratSub, Rat.mkRat_eq_div]
  have ha : ((a.den : ℚ)) ≠ 0 := by exact_mod_cast a.den_nz
  have hb : ((b.den : ℚ)) ≠ 0 := by exact_mod_cast b.den_nz
  conv_rhs => rw [← Rat.num_div_den a, ← Rat.num_div_den b]
  push_cast
  field_simp
  ring

theorem ratDiv_eq (a b : ℚ) (hb : 0 ≤ b) : ratDiv a b = a / b := by
  rcases eq_or_lt_of_le hb with h0 | hpos
  · subst h0
    simp only [ratDiv, Rat.num_ofNat, Int.natAbs_zero, Nat.mul_zero, div_zero]
    exact Rat.mkRat_self 0 ▸ (by simp [Rat.mkRat_eq_div])
  · have hnum : 0 < b.num := Rat.num_pos.mpr hpos
    have habs : (b.num.natAbs : ℤ) = b.num := Int.natAbs_of_nonneg hnum.le
    rw [ratDiv, Rat.mkRat_eq_div]
    have ha : ((a.den : ℚ)) ≠ 0 := by exact_mod_cast a.den_nz
    have hbd : ((b.den : ℚ)) ≠ 0 := by exact_mod_cast b.den_nz
    have hbn : ((b.num : ℚ)) ≠ 0 := by exact_mod_cast hnum.ne.symm
    have hq : (0 : ℚ) < ((b.num : ℤ) : ℚ) := by exact_mod_cast hnum
    have habsq : ((b.num.natAbs : ℚ)) = (b.num : ℚ) := by
      rw [Int.cast_natAbs]
      exact_mod_cast abs_of_pos hnum
    conv_rhs => rw [← Rat.num_div_den a, ← Rat.num_div_den b]
    push_cast
    rw [habsq]
    field_simp

/-- Lookup in an association list with a default, following Python
`d[k]` / `d.get(k, default)` (first matching key wins). -/
def dictFind {α : Type} (d : List (Item × α)) (k : Item) (default : α) : α :=
  match d with
  | [] => default
  | (k₀, v) :: rest => if k₀ = k then v else dictFind rest k default

/-- Model of `defaultdict(list)` append `d[k].append(v)`: if the key is
present, the value is appended to its list; otherwise a fresh singleton
entry is added at the end (Python insertion order). -/
def listAppendEntry {α : Type} (d : List (Item × List α)) (k : Item) (v : α) :
    List (Item × List α) :=
  match d with
  | [] => [(k, [v])]
  | (k₀, vs) :: rest =>
      if k₀ = k then (k₀, vs ++ [v]) :: rest
      else (k₀, vs) :: listAppendEntry rest k v

/-- Model of `defaultdict(float)` accumulation `d[k] += c`: the first entry
with key `k` is incremented in place, or a fresh entry `(k, c)` is appended
at the end. -/
def addScore (d : List (Item × ℚ)) (k : Item) (c : ℚ) : List (Item × ℚ) :=
  match d with
  | [] => [(k, c)]
  | (k₀, s) :: rest =>
      if k₀ = k then (k₀, ratAdd s c) :: rest
      else (k₀, s) :: addScore rest k c

/-- Insert `x` into a descending-sorted accumulator after every element
whose key is ≥ its key (so earlier equal-key elements stay first). -/
def insertDescBy {α : Type} (key : α → ℚ) (acc : List α) (x : α) : List α :=
  match acc with
  | [] => [x]
  | y :: ys => if key x ≤ key y then y :: insertDescBy key ys x else x :: y :: ys

/-- Stable descending sort by a rational key, modelling Python's
`sorted(..., key=..., reverse=True)` / `list.sort(key=..., reverse=True)`:
elements with equal keys keep their original relative order. -/
def sortDescBy {α : Type} (key : α → ℚ) (l : List α) : List α :=
  l.foldl (insertDescBy key) []

/-- An association rule as one row of `association_rules_df`
(mlxtend `association_rules` output): antecedent and consequent item sets
(modelled as duplicate-free lists in iteration order), the rule confidence
and the support of the full itemset. -/
structure Rule where
  antecedents : List Item
  consequents : List Item
  confidence : ℚ
  support : ℚ
  deriving Repr, DecidableEq

/-- Embedding of `FPGrowthRecommendationEngine._build_item_recommendations`:
for every rule, every antecedent item gets an entry `(consequent item,
confidence)` appended for every consequent item; then each source item's
list is sorted by confidence descending (stable). No deduplication of
(source, target) pairs is performed. -/
def buildItemRecommendations (rules : List Rule) :
    List (Item × List (Item × ℚ)) :=
  let d := rules.foldl
    (fun d r =>
      r.antecedents.foldl
        (fun d a =>
          r.consequents.foldl
            (fun d c => listAppendEntry d a (c, r.confidence)) d)
        d)
    []
  d.map (fun e => (e.1, sortDescBy (fun p => p.2) e.2))

/-- The accumulation loop of `FPGrowthRecommendationEngine.recommend`:
for each item of the context basket (in iteration order), walk its
association-index entry and add each recommended item's confidence to its
running score, skipping items already in the basket. -/
def scoresFor (recs : List (Item × List (Item × ℚ))) (userItems : List Item) :
    List (Item × ℚ) :=
  userItems.foldl
    (fun d u =>
      (dictFind recs u []).foldl
        (fun d rc => if rc.1 ∈ userItems then d else addScore d rc.1 rc.2) d)
    []

/-- Embedding of `FPGrowthRecommendationEngine.recommend`: empty basket or
empty index returns `[]`; otherwise accumulate scores, sort descending by
score (stable), truncate to `numItems` and return the item identifiers.
The `userId` argument is accepted and never used, as in the source. -/
def engineRecommend (recs : List (Item × List (Item × ℚ)))
    (userId : Item) (numItems : ℕ) (userItems : List Item) : List Item :=
  if userItems = [] ∨ recs = [] then []
  else
    (((sortDescBy (fun p => p.2) (scoresFor recs userItems)).take
      numItems).map Prod.fst)

/-- Embedding of `FPGrowthRecommendationEngine.get_popular_associated_items`:
empty (or absent) rule table returns `[]`; otherwise each rule adds its
confidence to the score of every item of its consequent, and the items are
returned sorted by score descending (stable), truncated to `numItems`. -/
def getPopularAssociatedItems (rules : List Rule) (numItems : ℕ) : List Item :=
  if rules = [] then []
  else
    let d := rules.foldl
      (fun d r =>
        r.consequents.foldl (fun d c => addScore d c r.confidence) d)
      []
    (((sortDescBy (fun p => p.2) d).take numItems).map Prod.fst)

/-! ### The mining pipeline behind `fit`

`fit` delegates itemset mining to mlxtend's `fpgrowth` and rule generation
to mlxtend's `association_rules`.  These are modelled extensionally: after
`TransactionEncoder`, a transaction is the set of its items over the
sorted column universe; `fpgrowth` returns exactly the itemsets whose
support ratio meets `min_support`; `association_rules` emits every
non-trivial bipartition of a frequent itemset of size ≥ 2 whose confidence
(itemset support / antecedent support) meets `min_confidence`.  The row
enumeration order of the library is not specified, so the theorems below
only use facts that are invariant under reordering of the produced rows
(entry multiplicities, emptiness, sortedness of the final index). -/

/-- Whether a transaction (row of the encoded binary matrix) contains every
item of `s`. -/
def txContains (t : List Item) (s : List Item) : Bool :=
  s.all (fun i => i ∈ t)

/-- Support count of an itemset: the number of transactions containing it. -/
def supportCount (txs : List (List Item)) (s : List Item) : ℕ :=
  (txs.filter (fun t => txContains t s)).length

/-- Support ratio of an itemset: support count over the number of
transactions. -/
def supportRatio (txs : List (List Item)) (s : List Item) : ℚ :=
  mkRat (supportCount txs s) txs.length

/-- Helper for `uniqueFirst`: drop every element already in `seen`,
keeping the first occurrence of each new element. -/
def uniqueFirstAux (seen : List Item) : List Item → List Item
  | [] => []
  | x :: xs =>
      if x ∈ seen then uniqueFirstAux seen xs
      else x :: uniqueFirstAux (x :: seen) xs

/-- Deduplicate a list keeping the first occurrence of each element, as
`pandas.Series.unique` does. -/
def uniqueFirst (l : List Item) : List Item :=
  uniqueFirstAux [] l

/-- Ascending insertion by the lexicographic identifier order (stated on
the character lists, which is definitionally `String.lt` and, unlike it,
kernel-reducible), used to model the sorted column universe of
`TransactionEncoder`. -/
def insertAsc (x : Item) : List Item → List Item
  | [] => [x]
  | y :: ys => if x.data < y.data then x :: y :: ys else y :: insertAsc x ys

/-- The encoder's column universe: the distinct items of all transactions,
in ascending identifier order. -/
def encoderColumns (txs : List (List Item)) : List Item :=
  (uniqueFirst (txs.foldl (fun acc t => acc ++ t) [])).foldr insertAsc []

/-- One row of the `frequent_itemsets` table: an itemset with its support
ratio. -/
structure FrequentItemset where
  items : List Item
  support : ℚ
  deriving Repr, DecidableEq

/-- Extensional model of `fpgrowth(df, min_support, use_colnames=True)`:
every non-empty subset of the column universe whose support ratio is at
least `minSupport`, with its support.  (The library's row order differs;
all facts proved below are order-invariant.) -/
def frequentItemsets (minSupport : ℚ) (txs : List (List Item)) :
    List FrequentItemset :=
  ((encoderColumns txs).sublists.filter
      (fun s => s ≠ [] ∧ supportRatio txs s ≥ minSupport)).map
    (fun s => ⟨s, supportRatio txs s⟩)

/-- Model of mlxtend `association_rules(frequent_itemsets, "confidence",
min_confidence)` over transactions `txs`: for every frequent itemset of
size ≥ 2 and every non-empty proper subset taken as antecedent (the rest
as consequent), keep the rule when itemset support / antecedent support
is at least `minConfidence`. -/
def rulesFromTransactions (minSupport minConfidence : ℚ)
    (txs : List (List Item)) : List Rule :=
  (frequentItemsets minSupport txs).foldr
    (fun f acc =>
      if f.items.length ≥ 2 then
        (f.items.sublists.filter
            (fun a => a ≠ [] ∧ a.length < f.items.length)).foldr
          (fun a acc =>
            let conf := ratDiv f.support (supportRatio txs a)
            if conf ≥ minConfidence then
              ⟨a, f.items.filter (fun i => i ∉ a), conf, f.support⟩ :: acc
            else acc)
          acc
      else acc)
    []

/-- The transaction list actually used by `fit` after the performance
limit: at most the first 200 transactions (`transactions[:200]`). -/
def fitTransactions (txs : List (List Item)) : List (List Item) :=
  if txs.length > 200 then txs.take 200 else txs

/-- The rule table held by the engine after `fit`: empty input fits
nothing; otherwise mine and generate rules on the (possibly truncated)
transaction list. -/
def fitRules (minSupport minConfidence : ℚ) (txs : List (List Item)) :
    List Rule :=
  if txs = [] then []
  else rulesFromTransactions minSupport minConfidence (fitTransactions txs)

/-- The association index held by the engine after `fit`. -/
def fitIndex (minSupport minConfidence : ℚ) (txs : List (List Item)) :
    List (Item × List (Item × ℚ)) :=
  buildItemRecommendations (fitRules minSupport minConfidence txs)

/-! ### The training application (`fp_growth_training.py`) -/

/-- The metadata dictionary written by `FPGrowthTrainingApp.train`.  Time
is measured in minutes (matching the `timedelta(minutes=...)` comparison
in `should_retrain`). -/
structure TrainMetadata where
  trainingTime : ℚ
  numTransactions : ℕ
  minSupport : ℚ
  minConfidence : ℚ
  numFrequentItemsets : ℕ
  numAssociationRules : ℕ
  deriving Repr, DecidableEq

/-- The observable outcome of `FPGrowthTrainingApp.train`: the returned
boolean and the artifacts written to disk (`None` = nothing written). -/
structure TrainResult where
  success : Bool
  savedModel : Option (List (Item × List (Item × ℚ)))
  savedMetadata : Option TrainMetadata
  deriving Repr, DecidableEq

/-- Embedding of `FPGrowthTrainingApp.train`, with the loaded transaction
list passed as a parameter: an empty list returns failure with nothing
written; otherwise the engine is fitted, the model pickled, and the
metadata written with the *untruncated* transaction count. -/
def train (minSupport minConfidence : ℚ) (now : ℚ)
    (transactions : List (List Item)) : TrainResult :=
  if transactions = [] then ⟨false, none, none⟩
  else
    let rules := fitRules minSupport minConfidence transactions
    ⟨true, some (buildItemRecommendations rules),
      some ⟨now, transactions.length, minSupport, minConfidence,
        (frequentItemsets minSupport (fitTransactions transactions)).length,
        rules.length⟩⟩

/-- Embedding of `FPGrowthTrainingApp.should_retrain`.  The metadata is
`none` when no metadata file exists or the dictionary lacks the
`training_time` key; otherwise it carries the recorded training time.
Times and the interval are in minutes. -/
def shouldRetrain (metadata : Option ℚ) (now intervalMinutes : ℚ) : Bool :=
  match metadata with
  | none => true
  | some lastTraining => decide (ratSub now lastTraining > intervalMinutes)

/-- Embedding of `FPGrowthTrainingApp._load_transaction_data`: rows of the
interactions table as (user id, item id) pairs; group by user, deduplicate
each user's items keeping first occurrence, and keep only baskets with
more than one item.  (pandas `groupby` sorts group keys; the group order
is modelled as first occurrence, which affects none of the facts proved
below.) -/
def loadTransactionData (rows : List (Item × Item)) : List (List Item) :=
  (uniqueFirst (rows.map Prod.fst)).foldr
    (fun u acc =>
      let transaction :=
        uniqueFirst ((rows.filter (fun r => r.1 = u)).map Prod.snd)
      if transaction.length > 1 then transaction :: acc else acc)
    []

/-! ### The recommendation application (`fp_growth_recommendations.py`)

`FPGrowthRecommendationApp.recommend` wraps its whole body in
`try/except Exception: return []`.  The fallible collaborators
(`_ensure_model_loaded`, `get_user_items`, the engine call) are modelled
as `Except String` values supplied as parameters, so the theorem
quantifies over every possible outcome, raising included. -/

/-- The body of `FPGrowthRecommendationApp.recommend` before the blanket
handler: ensure the model is loaded (failure → `[]`), obtain the user
items when not supplied (empty → `[]`), then call the engine. -/
def appRecommendBody (ensureLoaded : Except String Bool)
    (getUserItems : Except String (List Item))
    (engineCall : List Item → Except String (List Item))
    (userItems : Option (List Item)) : Except String (List Item) := do
  let loaded ← ensureLoaded
  if !loaded then
    return []
  let items ← match userItems with
    | some u => pure u
    | none => getUserItems
  if items = [] then
    return []
  engineCall items

/-- Embedding of `FPGrowthRecommendationApp.recommend` including the
`try/except Exception` handler, which maps any raised error to `[]`. -/
def appRecommend (ensureLoaded : Except String Bool)
    (getUserItems : Except String (List Item))
    (engineCall : List Item → Except String (List Item))
    (userItems : Option (List Item)) : Except String (List Item) :=
  tryCatch (appRecommendBody ensureLoaded getUserItems engineCall userItems)
    (fun _ => pure [])

/-! ### Properties of the stable descending sort -/

theorem insertDescBy_perm {α : Type} (key : α → ℚ) (acc : List α) (x : α) :
    (insertDescBy key acc x).Perm (x :: acc) := by
  induction acc with
  | nil => simp [insertDescBy]
  | cons y ys ih =>
      by_cases h : key x ≤ key y
      · simpa [insertDescBy, h] using
          ((ih.cons y).trans (List.Perm.swap x y ys))
      · simp [insertDescBy, h]

theorem foldl_insertDescBy_perm {α : Type} (key : α → ℚ) :
    ∀ (l acc : List α), (l.foldl (insertDescBy key) acc).Perm (l ++ acc)
  | [], acc => by simp
  | x :: xs, acc => by
      have h1 := foldl_insertDescBy_perm key xs (insertDescBy key acc x)
      have h2 : (xs ++ insertDescBy key acc x).Perm (xs ++ (x :: acc)) :=
        (insertDescBy_perm key acc x).append_left xs
      have h3 : (xs ++ (x :: acc)).Perm (x :: (xs ++ acc)) := List.perm_middle
      simpa using (h1.trans h2).trans h3

theorem sortDescBy_perm {α : Type} (key : α → ℚ) (l : List α) :
    (sortDescBy key l).Perm l := by
  simpa [sortDescBy] using foldl_insertDescBy_perm key l []

theorem mem_insertDescBy {α : Type} {key : α → ℚ} {acc : List α} {x a : α} :
    a ∈ insertDescBy key acc x ↔ a = x ∨ a ∈ acc := by
  constructor
  · intro h
    simpa using (insertDescBy_perm key acc x).mem_iff.mp h
  · intro h
    exact (insertDescBy_perm key acc x).mem_iff.mpr (by simpa using h)

theorem insertDescBy_sorted {α : Type} (key : α → ℚ) {acc : List α} (x : α)
    (h : acc.Pairwise (fun a b => key b ≤ key a)) :
    (insertDescBy key acc x).Pairwise (fun a b => key b ≤ key a) := by
  induction acc with
  | nil => simp [insertDescBy]
  | cons y ys ih =>
      rcases List.pairwise_cons.mp h with ⟨hy, hys⟩
      by_cases hle : key x ≤ key y
      · rw [insertDescBy]
        simp only [hle, if_true]
        refine List.pairwise_cons.mpr ⟨?_, ih hys⟩
        intro b hb
        rcases mem_insertDescBy.mp hb with rfl | hb
        · exact hle
        · exact hy b hb
      · rw [insertDescBy]
        simp only [hle, if_false]
        refine List.pairwise_cons.mpr ⟨?_, h⟩
        intro b hb
        rcases List.mem_cons.mp hb with rfl | hb
        · exact (le_of_not_le hle)
        · exact le_trans (hy b hb) (le_of_not_le hle)

theorem foldl_insertDescBy_sorted {α : Type} (key : α → ℚ) :
    ∀ (l acc : List α), acc.Pairwise (fun a b => key b ≤ key a) →
      (l.foldl (insertDescBy key) acc).Pairwise (fun a b => key b ≤ key a)
  | [], _, h => h
  | x :: xs, acc, h =>
      foldl_insertDescBy_sorted key xs (insertDescBy key acc x)
        (insertDescBy_sorted key x h)

theorem sortDescBy_sorted {α : Type} (key : α → ℚ) (l : List α) :
    (sortDescBy key l).Pairwise (fun a b => key b ≤ key a) :=
  foldl_insertDescBy_sorted key l [] (by simp)

/-! ### Characterizing the association-index build -/

/-- All (source, (target, confidence)) triples appended by the nested
loops of `_build_item_recommendations`, in loop order. -/
def buildPairs (rules : List Rule) : List (Item × (Item × ℚ)) :=
  rules.flatMap (fun r =>
    r.antecedents.flatMap (fun a =>
      r.consequents.map (fun c => (a, (c, r.confidence)))))

/-- The rule-derived recommendation edges for one source item, in loop
order: one entry per (rule, antecedent occurrence, consequent item). -/
def edgesFor (rules : List Rule) (src : Item) : List (Item × ℚ) :=
  ((buildPairs rules).filter (fun p => p.1 = src)).map Prod.snd

theorem foldl_flatMap {α β γ : Type} (f : β → α → β) (g : γ → List α) :
    ∀ (l : List γ) (init : β),
      (l.flatMap g).foldl f init = l.foldl (fun b c => (g c).foldl f b) init
  | [], _ => rfl
  | c :: cs, init => by
      rw [List.flatMap_cons, List.foldl_append, List.foldl_cons]
      exact foldl_flatMap f g cs _

theorem dictFind_listAppendEntry {α : Type} (d : List (Item × List α))
    (k : Item) (v : α) (a : Item) :
    dictFind (listAppendEntry d k v) a []
      = if k = a then dictFind d a [] ++ [v] else dictFind d a [] := by
  induction d with
  | nil =>
      by_cases h : k = a <;> simp [listAppendEntry, dictFind, h]
  | cons e rest ih =>
      obtain ⟨k₀, vs⟩ := e
      by_cases h0 : k₀ = k
      · subst h0
        by_cases h : k₀ = a <;> simp [listAppendEntry, dictFind, h]
      · by_cases h : k₀ = a
        · subst h
          have : k ≠ k₀ := fun hk => h0 hk.symm
          simp [listAppendEntry, dictFind, h0, this]
        · simp [listAppendEntry, dictFind, h0, h, ih]

theorem dictFind_foldl_append {α : Type} (src : Item) :
    ∀ (ps : List (Item × α)) (d : List (Item × List α)),
      dictFind (ps.foldl (fun d p => listAppendEntry d p.1 p.2) d) src []
        = dictFind d src [] ++ (ps.filter (fun p => p.1 = src)).map Prod.snd
  | [], d => by simp
  | p :: ps, d => by
      rw [List.foldl_cons, dictFind_foldl_append src ps,
        dictFind_listAppendEntry]
      by_cases h : p.1 = src
      · simp [h]
      · simp [h]

/-- The unsorted per-key contents of the built index are exactly the
edges appended by the loops. -/
theorem dictFind_buildLoop (rules : List Rule) (src : Item) :
    dictFind
      (rules.foldl
        (fun d r =>
          r.antecedents.foldl
            (fun d a =>
              r.consequents.foldl
                (fun d c => listAppendEntry d a (c, r.confidence)) d) d)
        []) src []
      = edgesFor rules src := by
  have hflat :
      (buildPairs rules).foldl (fun d p => listAppendEntry d p.1 p.2)
          ([] : List (Item × List (Item × ℚ)))
        = rules.foldl
            (fun d r =>
              r.antecedents.foldl
                (fun d a =>
                  r.consequents.foldl
                    (fun d c => listAppendEntry d a (c, r.confidence)) d) d)
            [] := by
    rw [buildPairs, foldl_flatMap]
    congr 1
    funext d r
    rw [foldl_flatMap]
    congr 1
    funext d a
    rw [List.foldl_map]
  rw [← hflat, dictFind_foldl_append, edgesFor]
  simp [dictFind]

theorem dictFind_mapSort (d : List (Item × List (Item × ℚ))) (a : Item) :
    dictFind (d.map (fun e => (e.1, sortDescBy (fun p => p.2) e.2))) a []
      = sortDescBy (fun p => p.2) (dictFind d a []) := by
  induction d with
  | nil => simp [dictFind, sortDescBy]
  | cons e rest ih =>
      by_cases h : e.1 = a <;> simp [dictFind, h, ih]

/-- The per-key contents of the built index: the rule-derived edges for
that key, stably sorted by confidence descending. -/
theorem dictFind_buildItemRecommendations (rules : List Rule) (src : Item) :
    dictFind (buildItemRecommendations rules) src []
      = sortDescBy (fun p => p.2) (edgesFor rules src) := by
  rw [buildItemRecommendations, dictFind_mapSort, dictFind_buildLoop]

/-! ### Characterizing the score accumulation of `recommend` -/

/-- The score the specification ascribes to a candidate: over all basket
items, the summed confidence of the entries of that item's index list that
recommend the candidate. -/
def specScore (recs : List (Item × List (Item × ℚ))) (userItems : List Item)
    (c : Item) : ℚ :=
  (userItems.map (fun u =>
    (((dictFind recs u []).filter (fun e => e.1 = c)).map Prod.snd).sum)).sum

theorem dictFind_addScore (d : List (Item × ℚ)) (k : Item) (c : ℚ) (a : Item) :
    dictFind (addScore d k c) a 0
      = if k = a then dictFind d a 0 + c else dictFind d a 0 := by
  induction d with
  | nil =>
      by_cases h : k = a <;> simp [addScore, dictFind, h]
  | cons e rest ih =>
      obtain ⟨k₀, s⟩ := e
      by_cases h0 : k₀ = k
      · subst h0
        by_cases h : k₀ = a
        · subst h
          simp [addScore, dictFind, ratAdd_eq]
        · have : k₀ ≠ a := h
          simp [addScore, dictFind, h, this]
      · by_cases h : k₀ = a
        · subst h
          have hk : k ≠ k₀ := fun hk => h0 hk.symm
          simp [addScore, dictFind, h0, hk]
        · simp [addScore, dictFind, h0, h, ih]

theorem keys_addScore (d : List (Item × ℚ)) (k : Item) (c : ℚ) :
    (addScore d k c).map Prod.fst
      = if k ∈ d.map Prod.fst then d.map Prod.fst
        else d.map Prod.fst ++ [k] := by
  induction d with
  | nil => simp [addScore]
  | cons e rest ih =>
      obtain ⟨k₀, s⟩ := e
      by_cases h0 : k₀ = k
      · subst h0
        simp [addScore]
      · have hk : k ≠ k₀ := fun hk => h0 hk.symm
        by_cases h : k ∈ rest.map Prod.fst <;>
          simp [addScore, h0, hk, h, ih]

theorem mem_keys_addScore {d : List (Item × ℚ)} {k a : Item} {c : ℚ}
    (h : a ∈ (addScore d k c).map Prod.fst) :
    a ∈ d.map Prod.fst ∨ a = k := by
  rw [keys_addScore] at h
  by_cases hk : k ∈ d.map Prod.fst
  · rw [if_pos hk] at h
    exact Or.inl h
  · rw [if_neg hk] at h
    rcases List.mem_append.mp h with h | h
    · exact Or.inl h
    · exact Or.inr (by simpa using h)

theorem nodup_keys_addScore {d : List (Item × ℚ)} {k : Item} {c : ℚ}
    (h : (d.map Prod.fst).Nodup) : ((addScore d k c).map Prod.fst).Nodup := by
  rw [keys_addScore]
  by_cases hk : k ∈ d.map Prod.fst
  · rw [if_pos hk]
    exact h
  · rw [if_neg hk]
    refine List.Nodup.append h (List.nodup_singleton k) ?_
    intro a ha hb
    rcases List.mem_singleton.mp hb with rfl
    exact hk ha

theorem dictFind_eq_of_mem {d : List (Item × ℚ)} {p : Item × ℚ}
    (hnd : (d.map Prod.fst).Nodup) (hp : p ∈ d) :
    dictFind d p.1 0 = p.2 := by
  induction d with
  | nil => cases hp
  | cons e rest ih =>
      rcases List.mem_cons.mp hp with rfl | hp
      · simp [dictFind]
      · have he : e.1 ≠ p.1 := by
          intro hcontra
          have : e.1 ∈ rest.map Prod.fst := hcontra ▸ List.mem_map_of_mem Prod.fst hp
          exact (List.nodup_cons.mp hnd).1 this
        simp [dictFind, he, ih (List.nodup_cons.mp hnd).2 hp]

theorem dictFind_innerFold (userItems : List Item) (c : Item)
    (hc : c ∉ userItems) (es : List (Item × ℚ)) :
    ∀ d : List (Item × ℚ),
      dictFind (es.foldl (fun d rc =>
          if rc.1 ∈ userItems then d else addScore d rc.1 rc.2) d) c 0
        = dictFind d c 0 + ((es.filter (fun e => e.1 = c)).map Prod.snd).sum := by
  induction es with
  | nil => intro d; simp
  | cons rc es ih =>
      intro d
      by_cases hmem : rc.1 ∈ userItems
      · have hne : rc.1 ≠ c := fun h => hc (h ▸ hmem)
        simp only [List.foldl_cons, hmem, if_true]
        rw [ih d]
        simp [List.filter_cons, hne]
      · simp only [List.foldl_cons, hmem, if_false]
        rw [ih (addScore d rc.1 rc.2), dictFind_addScore]
        by_cases hrc : rc.1 = c
        · simp [List.filter_cons, hrc, add_assoc]
        · have : ¬ (rc.1 = c) := hrc
          simp [List.filter_cons, this, hrc]

theorem dictFind_outerFold (recs : List (Item × List (Item × ℚ)))
    (userItems : List Item) (c : Item) (hc : c ∉ userItems)
    (us : List Item) :
    ∀ d : List (Item × ℚ),
      dictFind (us.foldl (fun d u =>
          (dictFind recs u []).foldl (fun d rc =>
            if rc.1 ∈ userItems then d else addScore d rc.1 rc.2) d) d) c 0
        = dictFind d c 0
          + (us.map (fun u =>
              (((dictFind recs u []).filter (fun e => e.1 = c)).map
                Prod.snd).sum)).sum := by
  induction us with
  | nil => intro d; simp
  | cons u us ih =>
      intro d
      simp only [List.foldl_cons, List.map_cons, List.sum_cons]
      rw [ih, dictFind_innerFold userItems c hc]
      ring

/-- The accumulated score of a candidate outside the basket is exactly the
specification's sum over basket items and matching entries. -/
theorem dictFind_scoresFor (recs : List (Item × List (Item × ℚ)))
    (userItems : List Item) (c : Item) (hc : c ∉ userItems) :
    dictFind (scoresFor recs userItems) c 0 = specScore recs userItems c := by
  rw [scoresFor, specScore, dictFind_outerFold recs userItems c hc userItems []]
  simp [dictFind]

theorem keys_innerFold (userItems : List Item) (P : Item → Prop)
    (es : List (Item × ℚ)) (hes : ∀ rc ∈ es, rc.1 ∉ userItems → P rc.1) :
    ∀ d : List (Item × ℚ), (∀ a ∈ d.map Prod.fst, P a) →
      ∀ a ∈ ((es.foldl (fun d rc =>
          if rc.1 ∈ userItems then d else addScore d rc.1 rc.2) d).map
            Prod.fst), P a := by
  induction es with
  | nil => intro d hd; simpa using hd
  | cons rc es ih =>
      intro d hd
      by_cases hmem : rc.1 ∈ userItems
      · simp only [List.foldl_cons, hmem, if_true]
        exact ih (fun e he h => hes e (List.mem_cons_of_mem rc he) h) d hd
      · simp only [List.foldl_cons, hmem, if_false]
        refine ih (fun e he h => hes e (List.mem_cons_of_mem rc he) h)
          (addScore d rc.1 rc.2) ?_
        intro a ha
        rcases mem_keys_addScore ha with h | rfl
        · exact hd a h
        · exact hes rc (List.mem_cons_self rc es) hmem

theorem keys_outerFold (recs : List (Item × List (Item × ℚ)))
    (userItems : List Item) (P : Item → Prop) (us : List Item)
    (hus : ∀ u ∈ us, ∀ rc ∈ dictFind recs u [], rc.1 ∉ userItems → P rc.1) :
    ∀ d : List (Item × ℚ), (∀ a ∈ d.map Prod.fst, P a) →
      ∀ a ∈ ((us.foldl (fun d u =>
          (dictFind recs u []).foldl (fun d rc =>
            if rc.1 ∈ userItems then d else addScore d rc.1 rc.2) d) d).map
              Prod.fst), P a := by
  induction us with
  | nil => intro d hd; simpa using hd
  | cons u us ih =>
      intro d hd
      simp only [List.foldl_cons]
      refine ih (fun v hv => hus v (List.mem_cons_of_mem u hv)) _ ?_
      exact keys_innerFold userItems P (dictFind recs u [])
        (hus u (List.mem_cons_self u us)) d hd

/-- Every key of the accumulated score dictionary lies outside the basket
and is recommended by at least one basket item's index entry. -/
theorem keys_scoresFor (recs : List (Item × List (Item × ℚ)))
    (userItems : List Item) :
    ∀ a ∈ (scoresFor recs userItems).map Prod.fst,
      a ∉ userItems ∧ ∃ u ∈ userItems, ∃ e ∈ dictFind recs u [], e.1 = a := by
  rw [scoresFor]
  exact keys_outerFold recs userItems _ userItems
    (fun u hu rc hrc h => ⟨h, u, hu, rc, hrc, rfl⟩) [] (by simp)

theorem nodup_keys_innerFold (userItems : List Item)
    (es : List (Item × ℚ)) :
    ∀ d : List (Item × ℚ), (d.map Prod.fst).Nodup →
      (((es.foldl (fun d rc =>
          if rc.1 ∈ userItems then d else addScore d rc.1 rc.2) d)).map
            Prod.fst).Nodup := by
  induction es with
  | nil => intro d hd; simpa using hd
  | cons rc es ih =>
      intro d hd
      by_cases hmem : rc.1 ∈ userItems
      · simp only [List.foldl_cons, hmem, if_true]
        exact ih d hd
      · simp only [List.foldl_cons, hmem, if_false]
        exact ih (addScore d rc.1 rc.2) (nodup_keys_addScore hd)

theorem nodup_keys_outerFold (recs : List (Item × List (Item × ℚ)))
    (userItems : List Item) (us : List Item) :
    ∀ d : List (Item × ℚ), (d.map Prod.fst).Nodup →
      (((us.foldl (fun d u =>
          (dictFind recs u []).foldl (fun d rc =>
            if rc.1 ∈ userItems then d else addScore d rc.1 rc.2) d) d)).map
              Prod.fst).Nodup := by
  induction us with
  | nil => intro d hd; simpa using hd
  | cons u us ih =>
      intro d hd
      simp only [List.foldl_cons]
      exact ih _ (nodup_keys_innerFold userItems (dictFind recs u []) d hd)

theorem nodup_keys_scoresFor (recs : List (Item × List (Item × ℚ)))
    (userItems : List Item) :
    ((scoresFor recs userItems).map Prod.fst).Nodup := by
  rw [scoresFor]
  exact nodup_keys_outerFold recs userItems userItems [] (by simp)

/-! ### Helpers for the remaining claims -/

theorem mem_uniqueFirstAux {x : Item} :
    ∀ {l seen : List Item}, x ∈ uniqueFirstAux seen l → x ∉ seen := by
  intro l
  induction l with
  | nil => intro seen h; cases h
  | cons y ys ih =>
      intro seen h
      rw [uniqueFirstAux] at h
      by_cases hy : y ∈ seen
      · rw [if_pos hy] at h
        exact ih h
      · rw [if_neg hy] at h
        rcases List.mem_cons.mp h with rfl | h
        · exact hy
        · intro hx
          exact (ih h) (List.mem_cons_of_mem y hx)

theorem nodup_uniqueFirstAux :
    ∀ (l seen : List Item), (uniqueFirstAux seen l).Nodup := by
  intro l
  induction l with
  | nil => intro seen; simp [uniqueFirstAux]
  | cons y ys ih =>
      intro seen
      rw [uniqueFirstAux]
      by_cases hy : y ∈ seen
      · rw [if_pos hy]
        exact ih seen
      · rw [if_neg hy]
        refine List.nodup_cons.mpr ⟨?_, ih (y :: seen)⟩
        intro hmem
        exact (mem_uniqueFirstAux hmem) (List.mem_cons_self y seen)

theorem nodup_uniqueFirst (l : List Item) : (uniqueFirst l).Nodup :=
  nodup_uniqueFirstAux l []

theorem mem_loadTransactionData_foldr
    (g : Item → List Item) :
    ∀ (us : List Item) (t : List Item),
      t ∈ us.foldr (fun u acc =>
        if (g u).length > 1 then g u :: acc else acc) [] →
      1 < t.length ∧ ∃ u, t = g u := by
  intro us
  induction us with
  | nil => intro t h; cases h
  | cons u us ih =>
      intro t h
      rw [List.foldr_cons] at h
      by_cases hg : (g u).length > 1
      · rw [if_pos hg] at h
        rcases List.mem_cons.mp h with rfl | h
        · exact ⟨hg, u, rfl⟩
        · exact ih t h
      · rw [if_neg hg] at h
        exact ih t h

/-- Every item returned by the engine is the key of an accumulated score
entry. -/
theorem mem_engineRecommend {recs : List (Item × List (Item × ℚ))}
    {uid : Item} {k : ℕ} {userItems : List Item} {x : Item}
    (hx : x ∈ engineRecommend recs uid k userItems) :
    ∃ p ∈ scoresFor recs userItems, p.1 = x := by
  rw [engineRecommend] at hx
  by_cases hcond : userItems = [] ∨ recs = []
  · rw [if_pos hcond] at hx
    cases hx
  · rw [if_neg hcond] at hx
    rcases List.mem_map.mp hx with ⟨p, hp, rfl⟩
    have hp₂ : p ∈ sortDescBy (fun p => p.2) (scoresFor recs userItems) :=
      (List.take_sublist k _).mem hp
    exact ⟨p, (sortDescBy_perm (fun p => p.2) _).mem_iff.mp hp₂, rfl⟩

/-! ### Claim theorems -/

/-- The worked scenario of the specification (§8): five transactions over
the items A, B, C, mined at minimum support 0.4 and minimum confidence
0.6. -/
def scenarioTransactions : List (List Item) :=
  [["A", "B", "C"], ["A", "B"], ["A", "C"], ["B", "C"], ["A", "B", "C"]]

/-- C1, counterexample: fitting the engine on the specification's own
scenario transactions yields an index whose list for source "A" holds the
target "B" twice (from the rules A→B at confidence 3/4 and AC→B at 2/3),
and the 2/3-confidence block lists C before B; so the built index neither
keeps at most one entry per target item nor breaks confidence ties by
target identifier. -/
theorem C1_counterexample :
    (dictFind (fitIndex (mkRat 2 5) (mkRat 3 5) scenarioTransactions) "A"
        []).map Prod.fst = ["B", "C", "C", "B"]
    ∧ ¬ ((dictFind (fitIndex (mkRat 2 5) (mkRat 3 5) scenarioTransactions)
        "A" []).map Prod.fst).Nodup := by
  constructor
  · decide
  · decide

/-- C1, amended: in the association index built from the rule table, each
source item's list is sorted descending by confidence (stably, so equal
confidences keep rule order), and its entries are exactly the rule-derived
edges for that source — one entry per (rule, antecedent item, consequent
item) triple, duplicate (source, target) pairs retained rather than
deduplicated by maximum confidence. -/
theorem C1_theorem (rules : List Rule) (src : Item) :
    (dictFind (buildItemRecommendations rules) src []).Pairwise
      (fun a b : Item × ℚ => b.2 ≤ a.2)
    ∧ (dictFind (buildItemRecommendations rules) src []).Perm
      (edgesFor rules src) := by
  rw [dictFind_buildItemRecommendations]
  exact ⟨sortDescBy_sorted (fun p : Item × ℚ => p.2) _,
    sortDescBy_perm (fun p : Item × ℚ => p.2) _⟩

/-- C3, counterexample: on the engine fitted to the scenario transactions,
`recommend` with an empty context basket returns `[]`, while
`get_popular_associated_items` returns the non-empty list [B, A, C]; the
two disagree, so the empty-basket call does not fall back to the
globally-popular view. -/
theorem C3_counterexample :
    engineRecommend (fitIndex (mkRat 2 5) (mkRat 3 5) scenarioTransactions)
        "u" 5 [] = []
    ∧ getPopularAssociatedItems
        (fitRules (mkRat 2 5) (mkRat 3 5) scenarioTransactions) 5
        = ["B", "A", "C"]
    ∧ engineRecommend (fitIndex (mkRat 2 5) (mkRat 3 5) scenarioTransactions)
          "u" 5 []
        ≠ getPopularAssociatedItems
            (fitRules (mkRat 2 5) (mkRat 3 5) scenarioTransactions) 5 := by
  refine ⟨by decide, by decide, by decide⟩

/-- C3, amended: for every engine state, `recommend` with an empty context
basket returns the empty list — the popularity fallback is never consulted
by the engine. -/
theorem C3_theorem (recs : List (Item × List (Item × ℚ))) (uid : Item)
    (k : ℕ) : engineRecommend recs uid k [] = [] := by
  simp [engineRecommend]

/-- C4: no item of the exclusion set (the `user_items` argument) ever
appears in the engine's recommendation output. -/
theorem C4_theorem (recs : List (Item × List (Item × ℚ))) (uid : Item)
    (k : ℕ) (userItems : List Item) (x : Item)
    (hx : x ∈ engineRecommend recs uid k userItems) : x ∉ userItems := by
  rcases mem_engineRecommend hx with ⟨p, hp, hpx⟩
  have hkey : p.1 ∈ (scoresFor recs userItems).map Prod.fst :=
    List.mem_map_of_mem Prod.fst hp
  exact hpx ▸ (keys_scoresFor recs userItems p.1 hkey).1

/-- C4, witness: the specification's scenario — index A → [(B, 3/4),
(C, 1/2)], exclusion set {A, C} — yields output containing B, and B is
indeed outside the exclusion set. -/
theorem C4_witness :
    "B" ∈ engineRecommend [("A", [("B", mkRat 3 4), ("C", mkRat 1 2)])]
        "u" 5 ["A", "C"]
    ∧ "B" ∉ (["A", "C"] : List Item) :=
  ⟨by decide,
    C4_theorem [("A", [("B", mkRat 3 4), ("C", mkRat 1 2)])] "u" 5
      ["A", "C"] "B" (by decide)⟩

/-- C10: the engine's recommendation output does not depend on the
`user_id` argument — two calls differing only in the user identifier
agree. -/
theorem C10_theorem (recs : List (Item × List (Item × ℚ))) (k : ℕ)
    (userItems : List Item) (u₁ u₂ : Item) :
    engineRecommend recs u₁ k userItems
      = engineRecommend recs u₂ k userItems := rfl

/-- C2, counterexample: with index A → [(Z, 1/2), (B, 1/2)] and basket
{A}, the candidates Z and B tie at accumulated score 1/2, yet the engine
returns [Z, B] although the identifier "B" precedes "Z" — the tie is not
broken by item identifier but by accumulation (stable-sort) order. -/
theorem C2_counterexample :
    engineRecommend [("A", [("Z", mkRat 1 2), ("B", mkRat 1 2)])] "u" 5
        ["A"] = ["Z", "B"]
    ∧ dictFind
        (scoresFor [("A", [("Z", mkRat 1 2), ("B", mkRat 1 2)])] ["A"]) "Z" 0
      = dictFind
        (scoresFor [("A", [("Z", mkRat 1 2), ("B", mkRat 1 2)])] ["A"]) "B" 0
    ∧ "B".data < "Z".data := by
  refine ⟨by decide, by decide, by decide⟩

/-- C2, amended: the engine's output is at most `k` long; it is sorted
descending by accumulated score, where (for candidates outside the basket)
the accumulated score is exactly the sum over basket items and matching
index entries of the recommended confidences; and every returned item is
recommended by at least one basket item's entry. Ties between equal scores
keep the accumulation order (stable sort) rather than identifier order. -/
theorem C2_theorem (recs : List (Item × List (Item × ℚ))) (uid : Item)
    (k : ℕ) (userItems : List Item) :
    (engineRecommend recs uid k userItems).length ≤ k
    ∧ (engineRecommend recs uid k userItems).Pairwise
        (fun a b : Item => dictFind (scoresFor recs userItems) b 0
          ≤ dictFind (scoresFor recs userItems) a 0)
    ∧ (∀ c, c ∉ userItems →
        dictFind (scoresFor recs userItems) c 0 = specScore recs userItems c)
    ∧ (∀ x ∈ engineRecommend recs uid k userItems,
        ∃ u ∈ userItems, ∃ e ∈ dictFind recs u [], e.1 = x) := by
  refine ⟨?_, ?_, ?_, ?_⟩
  · rw [engineRecommend]
    by_cases hcond : userItems = [] ∨ recs = []
    · simp [hcond]
    · rw [if_neg hcond, List.length_map]
      exact List.length_take_le k _
  · rw [engineRecommend]
    by_cases hcond : userItems = [] ∨ recs = []
    · simp [hcond]
    · rw [if_neg hcond]
      have hsorted := sortDescBy_sorted (fun p : Item × ℚ => p.2)
        (scoresFor recs userItems)
      have h1 := List.Pairwise.sublist (List.take_sublist k _) hsorted
      rw [List.pairwise_map]
      refine List.Pairwise.imp_of_mem ?_ h1
      intro a b ha hb hab
      have hamem : a ∈ scoresFor recs userItems :=
        (sortDescBy_perm (fun p : Item × ℚ => p.2) _).mem_iff.mp
          ((List.take_sublist k _).mem ha)
      have hbmem : b ∈ scoresFor recs userItems :=
        (sortDescBy_perm (fun p : Item × ℚ => p.2) _).mem_iff.mp
          ((List.take_sublist k _).mem hb)
      rw [dictFind_eq_of_mem (nodup_keys_scoresFor recs userItems) hamem,
        dictFind_eq_of_mem (nodup_keys_scoresFor recs userItems) hbmem]
      exact hab
  · intro c hc
    exact dictFind_scoresFor recs userItems c hc
  · intro x hx
    rcases mem_engineRecommend hx with ⟨p, hp, hpx⟩
    rcases (keys_scoresFor recs userItems p.1
        (List.mem_map_of_mem Prod.fst hp)).2 with ⟨u, hu, e, he, hex⟩
    exact ⟨u, hu, e, he, by rw [hex, hpx]⟩

/-- C2, witness: on the index A → [(B, 3/4), (C, 1/2)] with basket {A},
the accumulated score of B equals the specification's sum, and the output
for k = 1 has length at most 1. -/
theorem C2_witness :
    dictFind (scoresFor [("A", [("B", mkRat 3 4), ("C", mkRat 1 2)])] ["A"])
        "B" 0
      = specScore [("A", [("B", mkRat 3 4), ("C", mkRat 1 2)])] ["A"] "B"
    ∧ (engineRecommend [("A", [("B", mkRat 3 4), ("C", mkRat 1 2)])] "w" 1
        ["A"]).length ≤ 1 :=
  ⟨(C2_theorem [("A", [("B", mkRat 3 4), ("C", mkRat 1 2)])] "w" 1
      ["A"]).2.2.1 "B" (by decide),
    (C2_theorem [("A", [("B", mkRat 3 4), ("C", mkRat 1 2)])] "w" 1
      ["A"]).1⟩

/-- C5: when more than 200 transactions are supplied, `fit` works on the
200-transaction prefix — the mined rules and the built index are those of
`transactions[:200]` — while the metadata written by `train` records the
full, untruncated transaction count. -/
theorem C5_theorem (ms mc now : ℚ) (txs : List (List Item))
    (h : 200 < txs.length) :
    fitTransactions txs = txs.take 200
    ∧ fitRules ms mc txs = rulesFromTransactions ms mc (txs.take 200)
    ∧ fitIndex ms mc txs
        = buildItemRecommendations (rulesFromTransactions ms mc (txs.take 200))
    ∧ (train ms mc now txs).savedMetadata
        = some ⟨now, txs.length, ms, mc,
            (frequentItemsets ms (txs.take 200)).length,
            (rulesFromTransactions ms mc (txs.take 200)).length⟩ := by
  have htx : txs ≠ [] := by
    intro hnil
    rw [hnil] at h
    simp at h
  have hfit : fitTransactions txs = txs.take 200 := by
    rw [fitTransactions, if_pos h]
  have hrules : fitRules ms mc txs
      = rulesFromTransactions ms mc (txs.take 200) := by
    rw [fitRules, if_neg htx, hfit]
  refine ⟨hfit, hrules, ?_, ?_⟩
  · rw [fitIndex, hrules]
  · simp only [train, if_neg htx]
    rw [hrules, hfit]

set_option maxRecDepth 4000 in
/-- C5, witness: 201 copies of the transaction [a] are truncated to the
200-element prefix, while the recorded transaction count is the full 201. -/
theorem C5_witness :
    fitTransactions (List.replicate 201 ["a"])
      = (List.replicate 201 (["a"] : List Item)).take 200
    ∧ (train (mkRat 1 2) (mkRat 1 2) 0
        (List.replicate 201 ["a"])).savedMetadata
      = some ⟨0, (List.replicate 201 (["a"] : List Item)).length,
          mkRat 1 2, mkRat 1 2,
          (frequentItemsets (mkRat 1 2)
            ((List.replicate 201 (["a"] : List Item)).take 200)).length,
          (rulesFromTransactions (mkRat 1 2) (mkRat 1 2)
            ((List.replicate 201 (["a"] : List Item)).take 200)).length⟩ := by
  have h := C5_theorem (mkRat 1 2) (mkRat 1 2) 0 (List.replicate 201 ["a"])
    (by rw [List.length_replicate]; decide)
  exact ⟨h.1, h.2.2.2⟩

/-- C6: the staleness check returns true when no metadata (or recorded
training time) exists; for recorded metadata it returns true exactly when
the elapsed time strictly exceeds the interval; immediately after training
(elapsed time zero, nonnegative interval) it returns false; and the
metadata written by a successful `train` records the training time `now`. -/
theorem C6_theorem (now i last : ℚ) (hi : 0 ≤ i) :
    shouldRetrain none now i = true
    ∧ (shouldRetrain (some last) now i = true ↔ now - last > i)
    ∧ shouldRetrain (some now) now i = false
    ∧ (∀ ms mc txs md, (train ms mc now txs).savedMetadata = some md →
        md.trainingTime = now) := by
  refine ⟨rfl, ?_, ?_, ?_⟩
  · simp [shouldRetrain, ratSub_eq]
  · have h0 : ¬ ((0 : ℚ) > i) := not_lt.mpr hi
    simp [shouldRetrain, ratSub_eq, sub_self, h0]
  · intro ms mc txs md hmd
    by_cases htx : txs = []
    · simp [train, htx] at hmd
    · simp only [train, if_neg htx] at hmd
      rw [← Option.some.inj hmd]

/-- C6, witness: with no metadata the check returns true at time 5 with
interval 10; with metadata recorded at time 5 it returns false at time 5. -/
theorem C6_witness :
    shouldRetrain none (mkRat 5 1) (mkRat 10 1) = true
    ∧ shouldRetrain (some (mkRat 5 1)) (mkRat 5 1) (mkRat 10 1) = false := by
  have h := C6_theorem (mkRat 5 1) (mkRat 10 1) (mkRat 0 1) (by decide)
  exact ⟨h.1, h.2.2.1⟩

/-- C7, counterexample: training on exactly one transaction ([a, b])
returns success and writes both the model and the metadata artifact — it
is not rejected as below a minimum transaction count. -/
theorem C7_counterexample :
    (train (mkRat 1 100) (mkRat 1 2) 0 [["a", "b"]]).success = true
    ∧ (train (mkRat 1 100) (mkRat 1 2) 0 [["a", "b"]]).savedModel.isSome
        = true
    ∧ (train (mkRat 1 100) (mkRat 1 2) 0 [["a", "b"]]).savedMetadata.isSome
        = true := by
  refine ⟨by decide, by decide, by decide⟩

/-- C7, amended: `train` returns failure without writing any artifact
exactly when zero transactions are available; for any non-empty
transaction list (in particular a single transaction) it fits the engine,
writes both artifacts, and returns success. -/
theorem C7_theorem (ms mc now : ℚ) (txs : List (List Item)) :
    (txs = [] → train ms mc now txs = ⟨false, none, none⟩)
    ∧ (txs ≠ [] → (train ms mc now txs).success = true
        ∧ (train ms mc now txs).savedModel.isSome = true
        ∧ (train ms mc now txs).savedMetadata.isSome = true) := by
  constructor
  · intro h
    simp [train, h]
  · intro h
    refine ⟨?_, ?_, ?_⟩ <;> simp [train, h]

/-- C7, witness: the empty transaction list fails without artifacts, and a
single transaction trains successfully. -/
theorem C7_witness :
    train (mkRat 1 100) (mkRat 1 2) 0 [] = ⟨false, none, none⟩
    ∧ (train (mkRat 1 100) (mkRat 1 2) 0 [["x", "y"]]).success = true :=
  ⟨(C7_theorem (mkRat 1 100) (mkRat 1 2) 0 []).1 rfl,
    ((C7_theorem (mkRat 1 100) (mkRat 1 2) 0 [["x", "y"]]).2
      (by decide)).1⟩

/-- C8: the application-level `recommend` never surfaces an error — for
every outcome of the fallible collaborators it returns `ok` with some
list, and whenever model loading raises, the result is `ok []`. -/
theorem C8_theorem (ensureLoaded : Except String Bool)
    (getUserItems : Except String (List Item))
    (engineCall : List Item → Except String (List Item))
    (userItems : Option (List Item)) :
    (∃ l, appRecommend ensureLoaded getUserItems engineCall userItems
        = Except.ok l)
    ∧ (∀ m, appRecommend (Except.error m) getUserItems engineCall userItems
        = Except.ok []) := by
  constructor
  · cases hbody : appRecommendBody ensureLoaded getUserItems engineCall
        userItems with
    | error e =>
        refine ⟨[], ?_⟩
        rw [appRecommend, hbody]
        rfl
    | ok l =>
        refine ⟨l, ?_⟩
        rw [appRecommend, hbody]
        rfl
  · intro m
    rfl

/-- C9: every basket produced by the training data loader has at least two
items and no duplicates — sub-2 baskets are dropped and items are
deduplicated before the engine is fitted. -/
theorem C9_theorem (rows : List (Item × Item)) (t : List Item)
    (ht : t ∈ loadTransactionData rows) : 2 ≤ t.length ∧ t.Nodup := by
  rw [loadTransactionData] at ht
  have h := mem_loadTransactionData_foldr
    (fun u => uniqueFirst ((rows.filter (fun r => r.1 = u)).map Prod.snd))
    (uniqueFirst (rows.map Prod.fst)) t ht
  rcases h with ⟨hlen, u, rfl⟩
  exact ⟨hlen, nodup_uniqueFirst _⟩

/-- C9, witness: two interaction rows of one user yield the single basket
[a, b], which has two distinct items. -/
theorem C9_witness :
    (["a", "b"] : List Item) ∈ loadTransactionData [("u", "a"), ("u", "b")]
    ∧ 2 ≤ (["a", "b"] : List Item).length
    ∧ (["a", "b"] : List Item).Nodup := by
  have h := C9_theorem [("u", "a"), ("u", "b")] ["a", "b"] (by decide)
  exact ⟨by decide, h.1, h.2⟩

end FPGrowth
